import Mathlib

/-!
Verification of the advent-of-code-2022 solvers (calorie-counting,
rock-paper-scissors) and their shared input library, via a shallow
embedding of the Rust sources into Lean.  Strings are modelled as
`List Char`; machine integers (`u64`) as `Nat` with explicit `2 ^ 64`
bounds where the code checks for overflow; fallible code returns
`Except`; code that can panic returns `Option` (with `none` marking the
panic).
-/

deriving instance DecidableEq for Except

namespace Aoc

/-! ## Modelling Rust `str::lines` -/

/-- Models `str::split_inclusive` with a newline pattern: each segment
keeps its terminating newline; the final segment may lack one; the empty
string yields no segments. -/
def splitInclusive : List Char → List (List Char)
  | [] => []
  | c :: cs =>
    if c = '\n' then [c] :: splitInclusive cs
    else
      match splitInclusive cs with
      | [] => [[c]]
      | l :: ls => (c :: l) :: ls

/-- The per-segment map of Rust `str::lines`: strip one trailing newline,
and then one trailing carriage return, but only when the newline was
present — an unterminated final segment is kept verbatim, including a
trailing carriage return. -/
def stripNewlineCR (line : List Char) : List Char :=
  if line.getLast? = some '\n' then
    let l := line.dropLast
    if l.getLast? = some '\r' then l.dropLast else l
  else line

/-- Models Rust `str::lines`: split inclusively at newlines, then strip
each segment's `\n` (and a `\r` directly before it). -/
def rustLines (s : List Char) : List (List Char) :=
  (splitInclusive s).map stripNewlineCR

/-! ## Modelling Rust `u64::from_str` -/

/-- The error kinds of `std::num::ParseIntError` reachable from
`u64::from_str`. -/
inductive IntErrorKind where
  | empty
  | invalidDigit
  | posOverflow
  deriving DecidableEq

/-- First value that does not fit in a `u64`. -/
def u64Limit : Nat := 2 ^ 64

/-- The digit-accumulation loop of `from_str_radix` at radix 10 for
`u64`: the digit check comes first (a non-digit reports `InvalidDigit`
even when the accumulator is about to overflow), then the checked
multiply, then the checked add. -/
def parseDigits : List Char → Nat → Except IntErrorKind Nat
  | [], acc => Except.ok acc
  | c :: cs, acc =>
    if c.isDigit then
      if u64Limit ≤ acc * 10 then Except.error IntErrorKind.posOverflow
      else if u64Limit ≤ acc * 10 + (c.toNat - 48) then Except.error IntErrorKind.posOverflow
      else parseDigits cs (acc * 10 + (c.toNat - 48))
    else Except.error IntErrorKind.invalidDigit

/-- Models `u64::from_str`: empty input is an `Empty` error, a lone sign is
an `InvalidDigit` error, an optional leading plus sign is consumed, and the
remaining characters are parsed as base-10 digits. -/
def parseU64 (s : List Char) : Except IntErrorKind Nat :=
  match s with
  | [] => Except.error IntErrorKind.empty
  | ['+'] => Except.error IntErrorKind.invalidDigit
  | '+' :: rest => parseDigits rest 0
  | _ => parseDigits s 0

/-! ## calorie-counting/src/main.rs -/

/-- Models `struct Ration`. -/
structure Ration where
  calories : Nat
  deriving DecidableEq

/-- Models `struct Elf`. -/
structure Elf where
  rations : List Ration
  deriving DecidableEq

/-- Models `struct Elves`. -/
structure Elves where
  elves : List Elf
  deriving DecidableEq

/-- Models `struct ParseError(ParseIntError)` of calorie-counting: it
carries only the integer-parse failure, not the offending line. -/
structure CalorieParseError where
  cause : IntErrorKind
  deriving DecidableEq

/-- Display of calorie-counting `ParseError`: a fixed message, independent
of the offending line. -/
def calorieParseErrorMsg (_e : CalorieParseError) : List Char :=
  "expected an integer; only digits and newlines are valid input".toList

/-- Display of `std::num::ParseIntError` by kind. -/
def intErrorMsg : IntErrorKind → List Char
  | IntErrorKind.empty => "cannot parse integer from empty string".toList
  | IntErrorKind.invalidDigit => "invalid digit found in string".toList
  | IntErrorKind.posOverflow => "number too large to fit in target type".toList

/-- The loop body of `Elves::try_from`: an empty line seals the current
group, a non-empty line must parse as a `u64`; note that when the lines run
out the accumulated `rations` are dropped without being pushed. -/
def tryFromLoop : List (List Char) → List Elf → List Ration →
    Except CalorieParseError (List Elf)
  | [], elves, _rations => Except.ok elves
  | line :: rest, elves, rations =>
    if line = [] then tryFromLoop rest (elves ++ [{ rations := rations }]) []
    else
      match parseU64 line with
      | Except.ok n => tryFromLoop rest elves (rations ++ [{ calories := n }])
      | Except.error e => Except.error { cause := e }

/-- Models `Elves::try_from`. -/
def elvesTryFrom (calories : List Char) : Except CalorieParseError Elves :=
  (tryFromLoop (rustLines calories) [] []).map Elves.mk

/-- Sum of one elf's ration calories, a `u64` sum: release-mode Rust
addition wraps at `2 ^ 64`, and wrapping each intermediate addition is the
same as reducing the total once. -/
def elfSum (elf : Elf) : Nat :=
  (elf.rations.map Ration.calories).sum % u64Limit

/-- Models `Elves::max_calories`; the Rust code ends in `.max().unwrap()`,
so `none` marks the panic on an empty collection. -/
def maxCalories (e : Elves) : Option Nat :=
  match e.elves.map elfSum with
  | [] => none
  | x :: xs => some (xs.foldl Nat.max x)

/-- One step of the fold inside `Elves::max_calorie_sum`: fill the buffer
up to `top` elements, then sort ascending and replace the minimum with the
larger of it and the incoming value. -/
def topStep (top : Nat) (tops : List Nat) (calories : Nat) : List Nat :=
  if tops.length < top then tops ++ [calories]
  else
    match List.insertionSort (· ≤ ·) tops with
    | [] => []
    | bottom :: rest => Nat.max calories bottom :: rest

/-- Models `Elves::max_calorie_sum`; the final `.iter().sum()` is again a
wrapping `u64` sum. -/
def maxCalorieSum (e : Elves) (top : Nat) : Nat :=
  ((e.elves.map elfSum).foldl (topStep top) []).sum % u64Limit

/-! ## rock-paper-scissors/src/main.rs -/

/-- Models `enum Left`. -/
inductive RpsLeft where
  | A
  | B
  | C
  deriving DecidableEq

/-- Models `enum Right`. -/
inductive RpsRight where
  | X
  | Y
  | Z
  deriving DecidableEq

/-- Models `struct Row`. -/
structure Row where
  left : RpsLeft
  right : RpsRight
  deriving DecidableEq

/-- Models rock-paper-scissors `struct ParseError`, which carries the
invalid fragment of the line. -/
structure RowParseError where
  invalid : List Char
  deriving DecidableEq

/-- Models a Rust byte-index slice `row[i..]` of a UTF-8 string viewed as
its character list: `none` when `i` is past the end or falls inside the
UTF-8 encoding of a character (where Rust panics). -/
def byteSlice : List Char → Nat → Option (List Char)
  | l, 0 => some l
  | [], _ + 1 => none
  | c :: cs, i + 1 =>
    if c.utf8Size ≤ i + 1 then byteSlice cs (i + 1 - c.utf8Size) else none

/-- The first `match chars.next()` of `Row::from_str`. -/
def leftOfChar (c : Char) : Option RpsLeft :=
  if c = 'A' then some RpsLeft.A
  else if c = 'B' then some RpsLeft.B
  else if c = 'C' then some RpsLeft.C
  else none

/-- The third `match chars.next()` of `Row::from_str`. -/
def rightOfChar (c : Char) : Option RpsRight :=
  if c = 'X' then some RpsRight.X
  else if c = 'Y' then some RpsRight.Y
  else if c = 'Z' then some RpsRight.Z
  else none

/-- Models `Row::from_str`: four `chars.next()` checks in order (left
symbol, space, right symbol, end of line); each failure reports the byte
slice `row[0..]`, `row[1..]`, `row[2..]` or `row[3..]` respectively as the
invalid fragment. The outer `Option` is `none` when such a slice would
panic. -/
def rowFromStr (row : List Char) : Option (Except RowParseError Row) :=
  match row with
  | [] => (byteSlice row 0).map fun s => Except.error { invalid := s }
  | c0 :: rest0 =>
    match leftOfChar c0 with
    | none => (byteSlice row 0).map fun s => Except.error { invalid := s }
    | some lft =>
      match rest0 with
      | [] => (byteSlice row 1).map fun s => Except.error { invalid := s }
      | c1 :: rest1 =>
        if c1 = ' ' then
          match rest1 with
          | [] => (byteSlice row 2).map fun s => Except.error { invalid := s }
          | c2 :: rest2 =>
            match rightOfChar c2 with
            | none => (byteSlice row 2).map fun s => Except.error { invalid := s }
            | some rgt =>
              match rest2 with
              | [] => some (Except.ok { left := lft, right := rgt })
              | _ :: _ => (byteSlice row 3).map fun s => Except.error { invalid := s }
        else (byteSlice row 1).map fun s => Except.error { invalid := s }

/-- Models `enum Hand`. -/
inductive Hand where
  | Rock
  | Paper
  | Scissors
  deriving DecidableEq

/-- Models `enum Outcome`. -/
inductive Outcome where
  | Loss
  | Draw
  | Win
  deriving DecidableEq

/-- Models `Hand::match_with`. -/
def matchWith (you opponent : Hand) : Outcome :=
  if (you = Hand.Rock ∧ opponent = Hand.Scissors) ∨
      (you = Hand.Paper ∧ opponent = Hand.Rock) ∨
      (you = Hand.Scissors ∧ opponent = Hand.Paper) then
    Outcome.Win
  else if you = opponent then Outcome.Draw
  else Outcome.Loss

/-- Models `Hand::results_in`. -/
def resultsIn (hand : Hand) (outcome : Outcome) : Hand :=
  match hand, outcome with
  | Hand.Rock, Outcome.Loss | Hand.Paper, Outcome.Win
  | Hand.Scissors, Outcome.Draw => Hand.Scissors
  | Hand.Rock, Outcome.Win | Hand.Paper, Outcome.Draw
  | Hand.Scissors, Outcome.Loss => Hand.Paper
  | Hand.Rock, Outcome.Draw | Hand.Paper, Outcome.Loss
  | Hand.Scissors, Outcome.Win => Hand.Rock

/-- Models `impl Score for Hand`. -/
def handScore : Hand → Nat
  | Hand.Rock => 1
  | Hand.Paper => 2
  | Hand.Scissors => 3

/-- Models `impl Score for Outcome`. -/
def outcomeScore : Outcome → Nat
  | Outcome.Loss => 0
  | Outcome.Draw => 3
  | Outcome.Win => 6

/-- Models `impl From<Left> for Hand`. -/
def handOfLeft : RpsLeft → Hand
  | RpsLeft.A => Hand.Rock
  | RpsLeft.B => Hand.Paper
  | RpsLeft.C => Hand.Scissors

/-- Models `impl From<Right> for Hand`. -/
def handOfRight : RpsRight → Hand
  | RpsRight.X => Hand.Rock
  | RpsRight.Y => Hand.Paper
  | RpsRight.Z => Hand.Scissors

/-- Models `impl From<Right> for Outcome`. -/
def outcomeOfRight : RpsRight → Outcome
  | RpsRight.X => Outcome.Loss
  | RpsRight.Y => Outcome.Draw
  | RpsRight.Z => Outcome.Win

/-- Models `struct Match`. -/
structure MatchRow where
  you : Hand
  opponent : Hand
  deriving DecidableEq

/-- Models `impl From<Row> for Match`. -/
def matchOfRow (row : Row) : MatchRow :=
  { you := handOfRight row.right, opponent := handOfLeft row.left }

/-- Models `impl Score for Match`. -/
def matchScore (m : MatchRow) : Nat :=
  outcomeScore (matchWith m.you m.opponent) + handScore m.you

/-- Models `struct Strategy`. -/
structure StrategyRow where
  choice : Outcome
  opponent : Hand
  deriving DecidableEq

/-- Models `impl From<Row> for Strategy`. -/
def strategyOfRow (row : Row) : StrategyRow :=
  { choice := outcomeOfRight row.right, opponent := handOfLeft row.left }

/-- Models `impl Score for Strategy`. -/
def strategyScore (s : StrategyRow) : Nat :=
  outcomeScore s.choice + handScore (resultsIn s.opponent s.choice)

/-! ## lib/input/src/lib.rs: the error chain -/

/-- Models a `dyn Error` value for the chain: every error has a display
message and either no `source` or one causing error. -/
inductive DynError where
  | base (msg : List Char)
  | wrap (msg : List Char) (cause : DynError)
  deriving DecidableEq

/-- The `Display` message of the error itself. -/
def errMsg : DynError → List Char
  | DynError.base m => m
  | DynError.wrap m _ => m

/-- Models `Error::source`. -/
def errSource : DynError → Option DynError
  | DynError.base _ => none
  | DynError.wrap _ c => some c

/-- Models the sequence produced by the `ErrorChain` iterator: the error
itself, then each transitive `source`. -/
def chainList : DynError → List DynError
  | DynError.base m => [DynError.base m]
  | DynError.wrap m c => DynError.wrap m c :: chainList c

/-- Models `Display for SomeError` without the alternate flag: pass
through to the wrapped error's display. -/
def displayTerse (e : DynError) : List Char := errMsg e

/-- Models `Display for SomeError` with the alternate flag:
`writeln!("error: \x7berror\x7d")`, then one `writeln!("  - \x7berror\x7d")`
per element of the chain after the first. -/
def displayVerbose (e : DynError) : List Char :=
  "error: ".toList ++ errMsg e ++ ['\n'] ++
    (((chainList e).drop 1).map (fun er => "  - ".toList ++ errMsg er ++ ['\n'])).flatten

/-! ## lib/input/src/lib.rs: argument parsing -/

/-- Models `struct Description`. -/
structure Description where
  name : List Char
  binName : List Char
  description : List Char
  version : Nat × Nat × Nat
  deriving DecidableEq

/-- Models `enum Input`. -/
inductive Input where
  | file (path : List Char)
  | stdin
  deriving DecidableEq

/-- Models `enum NoInput`. -/
inductive NoInput where
  | noArgs (d : Description)
  | help (d : Description)
  | version (d : Description)
  deriving DecidableEq

/-- Models the `file_is` closure of `Input::from_args`. -/
def fileIs (file : Option (List Char)) (d : Description) : Except NoInput Input :=
  match file with
  | some f => Except.ok (Input.file f)
  | none => Except.error (NoInput.noArgs d)

/-- Models `Input::from_args` over the argument list (first element is the
binary name, which replaces `description.bin_name` when present). -/
def fromArgs (args : List (List Char)) (d : Description) : Except NoInput Input :=
  let d1 := match args.head? with
    | some binName => { d with binName := binName }
    | none => d
  let rest := args.tail
  match rest.head? with
  | some tok =>
    if tok = "--help".toList ∨ tok = "-h".toList then Except.error (NoInput.help d1)
    else if tok = "--version".toList ∨ tok = "-V".toList then
      Except.error (NoInput.version d1)
    else if tok = "--stdin".toList ∨ tok = "-0".toList then Except.ok Input.stdin
    else if tok = "--".toList then fileIs rest.tail.head? d1
    else fileIs rest.head? d1
  | none => fileIs rest.head? d1

/-- The apostrophe character, kept out of string literals. -/
def quoteChar : Char := Char.ofNat 39

/-- Decimal rendering of one version component. -/
def natRepr (n : Nat) : List Char := (Nat.repr n).toList

/-- Models `Display for NoInput`; the `\x7bbin_name\x7d`, `\x7bname\x7d`,
`\x7bdescription\x7d` and version interpolations of the three format
strings become list concatenations. -/
def noInputMsg : NoInput → List Char
  | NoInput.noArgs d =>
    "The following required argument was not provided: <FILE>\n\nUsage: ".toList ++
      (d.binName ++
        (" [OPTIONS] [FILE]\n\nFor more information try ".toList ++
          ([quoteChar] ++ "--help".toList ++ [quoteChar])))
  | NoInput.help d =>
    d.name ++ " ".toList ++ natRepr d.version.1 ++ ".".toList ++
      natRepr d.version.2.1 ++ ".".toList ++ natRepr d.version.2.2 ++
      "\nSolution app for advent of code 2022.\n".toList ++ d.description ++
      "\n\nUsage: ".toList ++ d.binName ++
      (" [OPTIONS] [FILE]\n\nArgs:\n    <FILE>    File to read as input\n\n" ++
        "Options:\n    -h, --help       Print help information\n" ++
        "    -V, --version    Print version information\n" ++
        "    -0  --stdin      Read input from stdin instead of a file").toList
  | NoInput.version d =>
    d.name ++ " ".toList ++ natRepr d.version.1 ++ ".".toList ++
      natRepr d.version.2.1 ++ ".".toList ++ natRepr d.version.2.2

/-! ## Lemmas and claim theorems -/

lemma sorted_ge_concat_le :
    ∀ (l : List Nat) (b x : Nat), List.Sorted (· ≥ ·) (l ++ [b]) → x ∈ l ++ [b] → b ≤ x := by
  intro l
  induction l with
  | nil =>
    intro b x _ hx
    simp at hx
    omega
  | cons a l ih =>
    intro b x hs hx
    rcases List.mem_cons.mp hx with h | h
    · subst h
      exact List.rel_of_sorted_cons hs b (by simp)
    · exact ih b x (List.sorted_cons.mp hs).2 h

lemma take_orderedInsert_of_le (c : Nat) :
    ∀ (s : List Nat) (k : Nat), List.Sorted (· ≥ ·) s → k ≤ s.length →
      (∀ x ∈ s.take k, c ≤ x) →
      ((List.orderedInsert (· ≥ ·) c s).take k).Perm (s.take k) := by
  intro s
  induction s with
  | nil =>
    intro k _ hk _
    have : k = 0 := Nat.le_zero.mp hk
    subst this
    simp
  | cons a s ih =>
    intro k hs hk hb
    match k with
    | 0 => simp
    | j + 1 =>
      have hca : c ≤ a := hb a (by simp)
      by_cases hge : c ≥ a
      · have haeq : a = c := le_antisymm hge hca
        subst haeq
        rw [List.orderedInsert, if_pos hge]
        have hjs : j ≤ s.length := Nat.succ_le_succ_iff.mp hk
        have hrep : s.take j = List.replicate j a := by
          rw [List.eq_replicate_iff]
          refine ⟨by rw [List.length_take]; omega, fun b hbmem => ?_⟩
          have h1 : a ≤ b := hb b (List.mem_cons_of_mem a hbmem)
          have h2 : b ≤ a :=
            List.rel_of_sorted_cons hs b (List.take_subset j s hbmem)
          exact le_antisymm h2 h1
        have htj : (a :: s).take j = List.replicate j a := by
          match j with
          | 0 => simp
          | i + 1 =>
            rw [List.take_succ_cons, List.replicate_succ]
            congr 1
            have : s.take i = List.take i (s.take (i + 1)) := by
              rw [List.take_take]
              congr 1
              omega
            rw [this, hrep, List.take_replicate]
            congr 1
            omega
        rw [List.take_succ_cons, List.take_succ_cons, htj, hrep]
      · rw [List.orderedInsert, if_neg hge]
        rw [List.take_succ_cons, List.take_succ_cons]
        refine List.Perm.cons a ?_
        refine ih j (List.sorted_cons.mp hs).2 (Nat.succ_le_succ_iff.mp hk) ?_
        intro x hx
        refine hb x ?_
        rw [List.take_succ_cons]
        exact List.mem_cons_of_mem a hx

lemma take_orderedInsert_of_exists_le (c : Nat) :
    ∀ (s : List Nat) (k : Nat), List.Sorted (· ≥ ·) s → 1 ≤ k → k ≤ s.length →
      (∃ y ∈ s.take k, y ≤ c) →
      ((List.orderedInsert (· ≥ ·) c s).take k).Perm (c :: s.take (k - 1)) := by
  intro s
  induction s with
  | nil =>
    intro k _ h1 hk _
    simp at hk
    omega
  | cons a s ih =>
    intro k hs h1 hk hex
    match k with
    | j + 1 =>
      by_cases hge : c ≥ a
      · rw [List.orderedInsert, if_pos hge, List.take_succ_cons]
        simp
      · obtain ⟨y, hy, hyc⟩ := hex
        rw [List.take_succ_cons] at hy
        have hys : y ∈ s.take j := by
          rcases List.mem_cons.mp hy with h | h
          · exact absurd (h ▸ hyc : a ≤ c) hge
          · exact h
        match j with
        | 0 => simp at hys
        | i + 1 =>
          rw [List.orderedInsert, if_neg hge, List.take_succ_cons]
          have hih := ih (i + 1) (List.sorted_cons.mp hs).2 (Nat.succ_le_succ (Nat.zero_le i))
            (Nat.succ_le_succ_iff.mp hk) ⟨y, hys, hyc⟩
          simp only [Nat.add_sub_cancel] at hih ⊢
          refine (List.Perm.cons a hih).trans ?_
          rw [List.take_succ_cons]
          exact List.Perm.swap c a (s.take i)

lemma sortDesc_append_singleton (p : List Nat) (c : Nat) :
    List.insertionSort (· ≥ ·) (p ++ [c]) =
      List.orderedInsert (· ≥ ·) c (List.insertionSort (· ≥ ·) p) := by
  have hsorted : List.Sorted (· ≥ ·)
      (List.orderedInsert (· ≥ ·) c (List.insertionSort (· ≥ ·) p)) :=
    List.Sorted.orderedInsert c _ (List.sorted_insertionSort _ _)
  refine List.eq_of_perm_of_sorted ?_ (List.sorted_insertionSort _ _) hsorted
  refine (List.perm_insertionSort _ _).trans ?_
  refine (List.perm_append_singleton c p).trans ?_
  refine (List.Perm.cons c (List.perm_insertionSort (· ≥ ·) p).symm).trans ?_
  exact (List.perm_orderedInsert (· ≥ ·) c (List.insertionSort (· ≥ ·) p)).symm

lemma foldl_topStep_perm (k : Nat) (p : List Nat) :
    (p.foldl (topStep k) []).Perm ((List.insertionSort (· ≥ ·) p).take k) := by
  induction p using List.reverseRecOn with
  | nil =>
    have h : List.insertionSort (· ≥ ·) ([] : List Nat) = [] := rfl
    rw [List.foldl_nil, h, List.take_nil]
  | append_singleton p c ih =>
    rw [List.foldl_append, List.foldl_cons, List.foldl_nil, sortDesc_append_singleton]
    have hsort : (List.insertionSort (· ≥ ·) p).Sorted (· ≥ ·) :=
      List.sorted_insertionSort _ p
    have hlen : (p.foldl (topStep k) []).length =
        min k (List.insertionSort (· ≥ ·) p).length := by
      rw [ih.length_eq, List.length_take]
    by_cases hfill : (p.foldl (topStep k) []).length < k
    · have hslen : (List.insertionSort (· ≥ ·) p).length < k := by omega
      rw [topStep, if_pos hfill]
      rw [List.take_of_length_le (le_of_lt hslen)] at ih
      rw [List.take_of_length_le
        (by rw [(List.perm_orderedInsert _ c _).length_eq, List.length_cons]; omega)]
      refine (List.perm_append_singleton c _).trans ?_
      exact (List.Perm.cons c ih).trans (List.perm_orderedInsert _ c _).symm
    · have htk : (p.foldl (topStep k) []).length = k := by omega
      have hsk : k ≤ (List.insertionSort (· ≥ ·) p).length := by omega
      rw [topStep, if_neg hfill]
      match hk : k, htk with
      | 0, htk =>
        have : p.foldl (topStep 0) [] = [] := List.length_eq_zero.mp htk
        rw [this]
        simp
      | j + 1, htk =>
        match hsrt : List.insertionSort (· ≤ ·) (p.foldl (topStep (j + 1)) []) with
        | [] =>
          have h1 := List.perm_insertionSort (· ≤ ·) (p.foldl (topStep (j + 1)) [])
          rw [hsrt] at h1
          rw [← h1.length_eq] at htk
          simp at htk
        | b :: rest =>
          have hperm : (b :: rest).Perm (p.foldl (topStep (j + 1)) []) := by
            rw [← hsrt]
            exact List.perm_insertionSort _ _
          have hasc : (b :: rest).Sorted (· ≤ ·) := by
            rw [← hsrt]
            exact List.sorted_insertionSort _ _
          have hbmin : ∀ x ∈ p.foldl (topStep (j + 1)) [], b ≤ x := by
            intro x hx
            rcases List.mem_cons.mp (hperm.mem_iff.mpr hx) with h | h
            · omega
            · exact List.rel_of_sorted_cons hasc x h
          have htake : ((List.insertionSort (· ≥ ·) p).take (j + 1)).Perm (b :: rest) :=
            ih.symm.trans hperm.symm
          by_cases hcb : c ≤ b
          · show (Nat.max c b :: rest).Perm _
            have hmax : Nat.max c b = b := Nat.max_eq_right hcb
            rw [hmax]
            refine (hperm.trans ih).trans ?_
            refine (take_orderedInsert_of_le c _ (j + 1) hsort hsk ?_).symm
            intro x hx
            exact le_trans hcb (hbmin x (ih.mem_iff.mpr hx))
          · have hbc : b ≤ c := by omega
            show (Nat.max c b :: rest).Perm _
            have hmax : Nat.max c b = c := Nat.max_eq_left hbc
            rw [hmax]
            have hL3 := take_orderedInsert_of_exists_le c _ (j + 1) hsort
              (Nat.succ_le_succ (Nat.zero_le j)) hsk
              ⟨b, htake.mem_iff.mpr (List.mem_cons_self b rest), hbc⟩
            simp only [Nat.add_sub_cancel] at hL3
            have hjlt : j < (List.insertionSort (· ≥ ·) p).length := hsk
            have hsplit : (List.insertionSort (· ≥ ·) p).take (j + 1) =
                (List.insertionSort (· ≥ ·) p).take j ++
                  [(List.insertionSort (· ≥ ·) p).get ⟨j, hjlt⟩] := by
              rw [List.take_succ]
              congr 1
              rw [List.getElem?_eq_getElem hjlt]
              rfl
            have hsortedtake : ((List.insertionSort (· ≥ ·) p).take (j + 1)).Sorted (· ≥ ·) :=
              List.Pairwise.sublist (List.take_sublist _ _) hsort
            have hmmem : (List.insertionSort (· ≥ ·) p).get ⟨j, hjlt⟩ ∈
                (List.insertionSort (· ≥ ·) p).take (j + 1) := by
              rw [hsplit]
              exact List.mem_append_right _ (List.mem_singleton.mpr rfl)
            have hmb : (List.insertionSort (· ≥ ·) p).get ⟨j, hjlt⟩ ≤ b := by
              refine sorted_ge_concat_le ((List.insertionSort (· ≥ ·) p).take j)
                ((List.insertionSort (· ≥ ·) p).get ⟨j, hjlt⟩) b ?_ ?_
              · rw [← hsplit]
                exact hsortedtake
              · rw [← hsplit]
                exact htake.mem_iff.mpr (List.mem_cons_self b rest)
            have hbm : b ≤ (List.insertionSort (· ≥ ·) p).get ⟨j, hjlt⟩ :=
              hbmin _ (ih.mem_iff.mpr hmmem)
            have hmb_eq : (List.insertionSort (· ≥ ·) p).get ⟨j, hjlt⟩ = b := by omega
            have hrest : rest.Perm ((List.insertionSort (· ≥ ·) p).take j) := by
              have h2 : (b :: rest).Perm
                  (b :: (List.insertionSort (· ≥ ·) p).take j) := by
                refine htake.symm.trans ?_
                rw [hsplit, hmb_eq]
                exact List.perm_append_singleton b _
              exact h2.cons_inv
            exact ((List.Perm.cons c hrest).trans hL3.symm)

/-- C1: evaluating `Elves::try_from` on the text `"3\n4\n\n5\n\n6\n7\n8\n"`
(which does not end with a blank line) shows that the trailing group
`[6,7,8]` is dropped: only the two groups `[[3,4],[5]]` survive, with sums
`[7,5]`, maximum `7` and top-3 sum `12` — not the `[[3,4],[5],[6,7,8]]`,
`21` and `33` the claim states.  The loop of `try_from` never pushes the
accumulated `rations` once the lines run out. -/
theorem c1_trailing_group_dropped :
    elvesTryFrom "3\n4\n\n5\n\n6\n7\n8\n".toList =
      Except.ok { elves := [{ rations := [{ calories := 3 }, { calories := 4 }] },
                            { rations := [{ calories := 5 }] }] } ∧
    maxCalories { elves := [{ rations := [{ calories := 3 }, { calories := 4 }] },
                            { rations := [{ calories := 5 }] }] } = some 7 ∧
    maxCalorieSum { elves := [{ rations := [{ calories := 3 }, { calories := 4 }] },
                              { rations := [{ calories := 5 }] }] } 3 = 12 := by
  decide

/-- C4 counterexample: the text `"5\n"` contains no blank line, parses
successfully to a collection with zero groups (the trailing group is
dropped), and on that collection `max_calories` reaches
`.max().unwrap()` on an empty iterator — `none` here — i.e. it panics,
contradicting the claim that evaluation is total for every successful
parse. -/
theorem c4_empty_collection_panics :
    elvesTryFrom "5\n".toList = Except.ok { elves := [] } ∧
    maxCalories { elves := [] } = none := by decide

/-- C4 amended: `max_calorie_sum` is total on every parsed collection
(`0` on zero groups), and `max_calories` is panic-free exactly when the
collection holds at least one group. -/
theorem c4_reductions_total_on_nonempty :
    (∀ e : Elves, e.elves ≠ [] → (maxCalories e).isSome = true) ∧
    (∀ k : Nat, maxCalorieSum { elves := [] } k = 0) := by
  constructor
  · intro e he
    match h : e.elves with
    | [] => exact absurd h he
    | elf :: elfs => simp [maxCalories, h]
  · intro k
    rfl

/-- C4 witness: the amended theorem applied to a one-group collection and
to `K = 3`. -/
theorem c4_reductions_total_on_nonempty_witness :
    (maxCalories { elves := [{ rations := [] }] }).isSome = true ∧
    maxCalorieSum { elves := [] } 3 = 0 :=
  ⟨c4_reductions_total_on_nonempty.1 { elves := [{ rations := [] }] } (by decide),
   c4_reductions_total_on_nonempty.2 3⟩

/-- C5 counterexample: parsing `"q\n"` fails, but the error value carries
only the `ParseIntError` kind, and neither its fixed displayed message nor
the message of its cause contains the malformed line content `"q"` — the
offending substring is not carried in the error, contradicting the claim
that the displayed diagnostic identifies the malformed line's content. -/
theorem c5_diagnostic_lacks_content :
    elvesTryFrom "q\n".toList =
      Except.error { cause := IntErrorKind.invalidDigit } ∧
    'q' ∉ calorieParseErrorMsg { cause := IntErrorKind.invalidDigit } ∧
    'q' ∉ intErrorMsg IntErrorKind.invalidDigit := by decide

/-- Helper for C5: if some line in the remaining input is non-empty and
fails integer parsing, the `try_from` loop returns a `ParseError`. -/
theorem tryFromLoop_error_of_bad_line :
    ∀ (ls : List (List Char)) (elves : List Elf) (rations : List Ration),
      (∃ l ∈ ls, l ≠ [] ∧ (parseU64 l).isOk = false) →
      ∃ e : CalorieParseError, tryFromLoop ls elves rations = Except.error e := by
  intro ls
  induction ls with
  | nil =>
    intro _ _ h
    obtain ⟨l, hl, _⟩ := h
    exact absurd hl (List.not_mem_nil l)
  | cons l0 rest ih =>
    intro elves rations h
    obtain ⟨l, hl, hne, hbad⟩ := h
    by_cases h0 : l0 = []
    · subst h0
      have hlr : l ∈ rest := by
        rcases List.mem_cons.mp hl with h | h
        · exact absurd h hne
        · exact h
      have := ih (elves ++ [{ rations := rations }]) [] ⟨l, hlr, hne, hbad⟩
      simpa [tryFromLoop] using this
    · match hp : parseU64 l0 with
      | Except.error e =>
        exact ⟨{ cause := e }, by simp [tryFromLoop, h0, hp]⟩
      | Except.ok n =>
        have hlr : l ∈ rest := by
          rcases List.mem_cons.mp hl with h | h
          · subst h
            rw [hp] at hbad
            simp [Except.isOk, Except.toBool] at hbad
          · exact h
        have := ih elves (rations ++ [{ calories := n }]) ⟨l, hlr, hne, hbad⟩
        obtain ⟨e, he⟩ := this
        exact ⟨e, by simp [tryFromLoop, h0, hp, he]⟩

/-- C5 amended: whenever the input text contains a non-empty line that is
not a valid base-10 `u64`, `Elves::try_from` fails with a `ParseError`;
the displayed diagnostic of that error is the fixed message
`"expected an integer; only digits and newlines are valid input"`,
independent of the offending line (the offending substring is not
carried). -/
theorem c5_parse_fails_with_fixed_message :
    ∀ text : List Char,
      (∃ l ∈ rustLines text, l ≠ [] ∧ (parseU64 l).isOk = false) →
      ∃ e : CalorieParseError, elvesTryFrom text = Except.error e ∧
        calorieParseErrorMsg e =
          "expected an integer; only digits and newlines are valid input".toList := by
  intro text h
  obtain ⟨e, he⟩ := tryFromLoop_error_of_bad_line (rustLines text) [] [] h
  exact ⟨e, by unfold elvesTryFrom; rw [he]; rfl, rfl⟩

/-- C5 witness: the amended theorem applied to the text `"q\n"`. -/
theorem c5_parse_fails_with_fixed_message_witness :
    ∃ e : CalorieParseError, elvesTryFrom "q\n".toList = Except.error e ∧
      calorieParseErrorMsg e =
        "expected an integer; only digits and newlines are valid input".toList :=
  c5_parse_fails_with_fixed_message "q\n".toList (by decide)

/-- C3: resolving a desired outcome against a hand and then confronting
that hand yields the desired outcome back — `results_in` is the inverse of
`match_with` on all 9 pairs:
`a.results_in(o).match_with(a) == o`. -/
theorem resultsIn_matchWith_inverse :
    ∀ (a : Hand) (o : Outcome), matchWith (resultsIn a o) a = o := by
  intro a o
  cases a <;> cases o <;> rfl

/-- C9: the single row `"A Y"` parses, and scores 8 under the
fixed-choice (`Match`) interpretation and 4 under the desired-outcome
(`Strategy`) interpretation. -/
theorem row_AY_scores :
    rowFromStr "A Y".toList =
      some (Except.ok { left := RpsLeft.A, right := RpsRight.Y }) ∧
    matchScore (matchOfRow { left := RpsLeft.A, right := RpsRight.Y }) = 8 ∧
    strategyScore (strategyOfRow { left := RpsLeft.A, right := RpsRight.Y }) = 4 := by
  decide

lemma left_char (c : Char) (l : RpsLeft) (h : leftOfChar c = some l) :
    c = 'A' ∨ c = 'B' ∨ c = 'C' := by
  unfold leftOfChar at h
  split_ifs at h with h1 h2 h3
  · exact Or.inl h1
  · exact Or.inr (Or.inl h2)
  · exact Or.inr (Or.inr h3)

lemma right_char (c : Char) (r : RpsRight) (h : rightOfChar c = some r) :
    c = 'X' ∨ c = 'Y' ∨ c = 'Z' := by
  unfold rightOfChar at h
  split_ifs at h with h1 h2 h3
  · exact Or.inl h1
  · exact Or.inr (Or.inl h2)
  · exact Or.inr (Or.inr h3)

lemma rowFromStr_err_badLeft (c0 : Char) (rest : List Char) (h0 : leftOfChar c0 = none) :
    rowFromStr (c0 :: rest) = some (Except.error { invalid := c0 :: rest }) := by
  simp [rowFromStr, h0]
  rfl

lemma rowFromStr_err_missingSpace (c0 : Char) (l : RpsLeft) (h0 : leftOfChar c0 = some l) :
    rowFromStr [c0] = some (Except.error { invalid := [] }) := by
  rcases left_char c0 l h0 with h | h | h <;> subst h <;> rfl

lemma rowFromStr_err_notSpace (c0 c1 : Char) (rest : List Char) (l : RpsLeft)
    (h0 : leftOfChar c0 = some l) (h1 : c1 ≠ ' ') :
    rowFromStr (c0 :: c1 :: rest) = some (Except.error { invalid := c1 :: rest }) := by
  rcases left_char c0 l h0 with h | h | h <;> subst h <;>
    simp [rowFromStr, leftOfChar, h1] <;> rfl

lemma rowFromStr_err_missingRight (c0 : Char) (l : RpsLeft) (h0 : leftOfChar c0 = some l) :
    rowFromStr [c0, ' '] = some (Except.error { invalid := [] }) := by
  rcases left_char c0 l h0 with h | h | h <;> subst h <;> rfl

lemma rowFromStr_err_badRight (c0 c2 : Char) (rest : List Char) (l : RpsLeft)
    (h0 : leftOfChar c0 = some l) (h2 : rightOfChar c2 = none) :
    rowFromStr (c0 :: ' ' :: c2 :: rest) =
      some (Except.error { invalid := c2 :: rest }) := by
  rcases left_char c0 l h0 with h | h | h <;> subst h <;>
    simp [rowFromStr, leftOfChar, h2] <;> rfl

lemma rowFromStr_ok_full (c0 c2 : Char) (l : RpsLeft) (r : RpsRight)
    (h0 : leftOfChar c0 = some l) (h2 : rightOfChar c2 = some r) :
    rowFromStr [c0, ' ', c2] = some (Except.ok { left := l, right := r }) := by
  rcases left_char c0 l h0 with h | h | h <;> subst h <;>
    rcases right_char c2 r h2 with g | g | g <;> subst g <;>
    simp [leftOfChar] at h0 <;> simp [rightOfChar] at h2 <;>
    subst h0 <;> subst h2 <;> rfl

lemma rowFromStr_err_extra (c0 c2 c3 : Char) (rest : List Char) (l : RpsLeft) (r : RpsRight)
    (h0 : leftOfChar c0 = some l) (h2 : rightOfChar c2 = some r) :
    rowFromStr (c0 :: ' ' :: c2 :: c3 :: rest) =
      some (Except.error { invalid := c3 :: rest }) := by
  rcases left_char c0 l h0 with h | h | h <;> subst h <;>
    rcases right_char c2 r h2 with g | g | g <;> subst g <;> rfl

lemma err_inv {x : List Char} {e : RowParseError}
    (h : (some (Except.error { invalid := x }) : Option (Except RowParseError Row)) =
      some (Except.error e)) :
    e.invalid = x := by
  simp only [Option.some.injEq, Except.error.injEq] at h
  exact h ▸ rfl

/-- C6: `Row::from_str` validates left to right and the first failure
determines the reported invalid substring, which is a suffix of the line
running from the point of failure to its end: a bad first symbol reports
`row[0..]`, a missing or wrong second character reports `row[1..]`, a bad
or missing third symbol reports `row[2..]`, and trailing characters report
`row[3..]`; in particular the malformed line `"A"` reports the empty
suffix right after the first character. -/
theorem rowFromStr_positional_error :
    (∀ (row : List Char) (e : RowParseError),
        rowFromStr row = some (Except.error e) → List.IsSuffix e.invalid row) ∧
    (∀ (c0 : Char) (rest : List Char), leftOfChar c0 = none →
        rowFromStr (c0 :: rest) = some (Except.error { invalid := c0 :: rest })) ∧
    (∀ (c0 : Char) (l : RpsLeft), leftOfChar c0 = some l →
        rowFromStr [c0] = some (Except.error { invalid := [] })) ∧
    (∀ (c0 c1 : Char) (rest : List Char) (l : RpsLeft), leftOfChar c0 = some l →
        c1 ≠ ' ' →
        rowFromStr (c0 :: c1 :: rest) = some (Except.error { invalid := c1 :: rest })) ∧
    (∀ (c0 : Char) (l : RpsLeft), leftOfChar c0 = some l →
        rowFromStr [c0, ' '] = some (Except.error { invalid := [] })) ∧
    (∀ (c0 c2 : Char) (rest : List Char) (l : RpsLeft), leftOfChar c0 = some l →
        rightOfChar c2 = none →
        rowFromStr (c0 :: ' ' :: c2 :: rest) =
          some (Except.error { invalid := c2 :: rest })) ∧
    (∀ (c0 c2 c3 : Char) (rest : List Char) (l : RpsLeft) (r : RpsRight),
        leftOfChar c0 = some l → rightOfChar c2 = some r →
        rowFromStr (c0 :: ' ' :: c2 :: c3 :: rest) =
          some (Except.error { invalid := c3 :: rest })) ∧
    rowFromStr ['A'] = some (Except.error { invalid := [] }) := by
  refine ⟨?_, rowFromStr_err_badLeft, rowFromStr_err_missingSpace, rowFromStr_err_notSpace, rowFromStr_err_missingRight, rowFromStr_err_badRight, rowFromStr_err_extra, rfl⟩
  intro row e he
  match row with
  | [] =>
    have hx : e.invalid = [] :=
      err_inv ((show rowFromStr [] = some (Except.error { invalid := [] }) from rfl).symm.trans he)
    rw [hx]
  | [c0] =>
    match h0 : leftOfChar c0 with
    | none =>
      have hx : e.invalid = [c0] := err_inv ((rowFromStr_err_badLeft c0 [] h0).symm.trans he)
      rw [hx]
    | some lft =>
      have hx : e.invalid = [] := err_inv ((rowFromStr_err_missingSpace c0 lft h0).symm.trans he)
      rw [hx]
      exact List.nil_suffix
  | c0 :: c1 :: rest1 =>
    match h0 : leftOfChar c0 with
    | none =>
      have hx : e.invalid = c0 :: c1 :: rest1 :=
        err_inv ((rowFromStr_err_badLeft c0 (c1 :: rest1) h0).symm.trans he)
      rw [hx]
    | some lft =>
      by_cases h1 : c1 = ' '
      · subst h1
        match rest1 with
        | [] =>
          have hx : e.invalid = [] := err_inv ((rowFromStr_err_missingRight c0 lft h0).symm.trans he)
          rw [hx]
          exact List.nil_suffix
        | c2 :: rest2 =>
          match h2 : rightOfChar c2 with
          | none =>
            have hx : e.invalid = c2 :: rest2 :=
              err_inv ((rowFromStr_err_badRight c0 c2 rest2 lft h0 h2).symm.trans he)
            rw [hx]
            exact ⟨[c0, ' '], rfl⟩
          | some rgt =>
            match rest2 with
            | [] =>
              have hcontra := (rowFromStr_ok_full c0 c2 lft rgt h0 h2).symm.trans he
              simp at hcontra
            | c3 :: rest3 =>
              have hx : e.invalid = c3 :: rest3 :=
                err_inv ((rowFromStr_err_extra c0 c2 c3 rest3 lft rgt h0 h2).symm.trans he)
              rw [hx]
              exact ⟨[c0, ' ', c2], rfl⟩
      · have hx : e.invalid = c1 :: rest1 :=
          err_inv ((rowFromStr_err_notSpace c0 c1 rest1 lft h0 h1).symm.trans he)
        rw [hx]
        exact ⟨[c0], rfl⟩

/-- C10: `Row::from_str` never panics: every byte-index slice it takes is
at a character boundary, because each slice is only reached after the
preceding characters have been verified to be single-byte ASCII symbols.
`none` would mark a panicking slice, and it never occurs. -/
theorem rowFromStr_never_panics (row : List Char) :
    (rowFromStr row).isSome = true := by
  match row with
  | [] => rfl
  | [c0] =>
    match h0 : leftOfChar c0 with
    | none => rw [rowFromStr_err_badLeft c0 [] h0]; rfl
    | some lft => rw [rowFromStr_err_missingSpace c0 lft h0]; rfl
  | c0 :: c1 :: rest1 =>
    match h0 : leftOfChar c0 with
    | none => rw [rowFromStr_err_badLeft c0 (c1 :: rest1) h0]; rfl
    | some lft =>
      by_cases h1 : c1 = ' '
      · subst h1
        match rest1 with
        | [] => rw [rowFromStr_err_missingRight c0 lft h0]; rfl
        | c2 :: rest2 =>
          match h2 : rightOfChar c2 with
          | none => rw [rowFromStr_err_badRight c0 c2 rest2 lft h0 h2]; rfl
          | some rgt =>
            match rest2 with
            | [] => rw [rowFromStr_ok_full c0 c2 lft rgt h0 h2]; rfl
            | c3 :: rest3 => rw [rowFromStr_err_extra c0 c2 c3 rest3 lft rgt h0 h2]; rfl
      · rw [rowFromStr_err_notSpace c0 c1 rest1 lft h0 h1]; rfl

/-- C6 witness: the theorem applied at the concrete line `"AY"` (left
symbol ok, second character not a space), reporting the suffix after the
first character. -/
theorem rowFromStr_positional_error_witness :
    rowFromStr ['A', 'Y'] = some (Except.error { invalid := ['Y'] }) :=
  rowFromStr_positional_error.2.2.2.1 'A' 'Y' [] RpsLeft.A (by decide) (by decide)

lemma splitInclusive_append (a r : List Char) (ha : '\n' ∉ a) :
    splitInclusive (a ++ '\n' :: r) = (a ++ ['\n']) :: splitInclusive r := by
  match a with
  | [] => simp [splitInclusive]
  | c :: cs =>
    have hc : c ≠ '\n' := fun h => ha (h ▸ List.mem_cons_self c cs)
    have ih := splitInclusive_append cs r (fun h => ha (List.mem_cons_of_mem c h))
    simp only [List.cons_append, splitInclusive, hc, if_false]
    rw [show cs.append ('\n' :: r) = cs ++ '\n' :: r from rfl, ih]

lemma stripNewlineCR_terminated (l : List Char) (h : l.getLast? ≠ some '\r') :
    stripNewlineCR (l ++ ['\n']) = l := by
  unfold stripNewlineCR
  rw [List.getLast?_append_of_ne_nil _ (by simp)]
  simp [List.dropLast_concat, h]

/-- Splitting a flattened block of newline-terminated clean lines with
`rustLines` recovers those lines. -/
lemma rustLines_flatten (ls : List (List Char))
    (h : ∀ l ∈ ls, '\n' ∉ l ∧ l.getLast? ≠ some '\r') :
    rustLines ((ls.map (fun l => l ++ ['\n'])).flatten) = ls := by
  match ls with
  | [] => rfl
  | l :: rest =>
    have hl := h l (List.mem_cons_self l rest)
    have ih := rustLines_flatten rest (fun x hx => h x (List.mem_cons_of_mem l hx))
    unfold rustLines at ih ⊢
    rw [List.map_cons, List.flatten_cons, List.append_assoc, List.singleton_append,
      splitInclusive_append l _ hl.1, List.map_cons,
      stripNewlineCR_terminated l hl.2, ih]

lemma mem_chainList_self (e : DynError) : e ∈ chainList e := by
  cases e <;> simp [chainList]

/-- C7: `SomeError`'s terse display shows only the outermost message,
and its verbose (alternate) display shows the outermost message on an
`error: `-prefixed first line followed by exactly one `  - `-prefixed
line per transitive cause; so the display has `1` line terse and
`1 + number of causes` lines verbose (an error with one cause: 1 and 2;
with zero causes: 1 and 1), provided the messages themselves contain no
line breaks and no trailing carriage return. -/
theorem someError_display_lines :
    ∀ e : DynError,
      displayTerse e = errMsg e ∧
      ((∀ er ∈ chainList e, '\n' ∉ errMsg er ∧ (errMsg er).getLast? ≠ some '\r') →
        rustLines (displayVerbose e) =
          ("error: ".toList ++ errMsg e) ::
            ((chainList e).drop 1).map (fun er => "  - ".toList ++ errMsg er) ∧
        (rustLines (displayVerbose e)).length = 1 + ((chainList e).drop 1).length) := by
  intro e
  refine ⟨rfl, fun h => ?_⟩
  have key : displayVerbose e =
      ((("error: ".toList ++ errMsg e) ::
          ((chainList e).drop 1).map (fun er => "  - ".toList ++ errMsg er)).map
        (fun l => l ++ ['\n'])).flatten := by
    simp [displayVerbose, List.map_map, Function.comp_def, List.append_assoc]
  have hclean : ∀ l ∈ ("error: ".toList ++ errMsg e) ::
      ((chainList e).drop 1).map (fun er => "  - ".toList ++ errMsg er),
      '\n' ∉ l ∧ l.getLast? ≠ some '\r' := by
    intro l hlmem
    rcases List.mem_cons.mp hlmem with hl | hl
    · subst hl
      have hme := h e (mem_chainList_self e)
      constructor
      · intro hmem
        rcases List.mem_append.mp hmem with hmem | hmem
        · revert hmem
          decide
        · exact hme.1 hmem
      · match hm : errMsg e with
        | [] => decide
        | c :: cs =>
          rw [List.getLast?_append_of_ne_nil _ (by simp)]
          rw [hm] at hme
          exact hme.2
    · obtain ⟨er, hermem, rfl⟩ := List.mem_map.mp hl
      have hme := h er (List.drop_subset 1 (chainList e) hermem)
      constructor
      · intro hmem
        rcases List.mem_append.mp hmem with hmem | hmem
        · revert hmem
          decide
        · exact hme.1 hmem
      · match hm : errMsg er with
        | [] => decide
        | c :: cs =>
          rw [List.getLast?_append_of_ne_nil _ (by simp)]
          rw [hm] at hme
          exact hme.2
  have := rustLines_flatten _ hclean
  rw [key, this]
  exact ⟨rfl, by simp; omega⟩

/-- C7 witness: the theorem applied to an error with one cause (terse one
line, verbose two lines) and to an error with no cause (one line in both
modes). -/
theorem someError_display_lines_witness :
    displayTerse (DynError.wrap "cannot read from stdin".toList
        (DynError.base "os error opening stdin".toList)) =
      "cannot read from stdin".toList ∧
    rustLines (displayVerbose (DynError.wrap "cannot read from stdin".toList
        (DynError.base "os error opening stdin".toList))) =
      ["error: cannot read from stdin".toList, "  - os error opening stdin".toList] ∧
    rustLines (displayVerbose (DynError.base "no input".toList)) =
      ["error: no input".toList] := by
  refine ⟨(someError_display_lines _).1.trans (by decide), ?_, ?_⟩
  · exact (((someError_display_lines _).2 (by decide)).1).trans (by decide)
  · exact (((someError_display_lines (DynError.base "no input".toList)).2
      (by decide)).1).trans (by decide)

/-- C8: `Input::from_args` classifies the first token after the binary
name: `--help`/`-h` give the Help error, `--version`/`-V` give Version,
`--stdin`/`-0` select stdin, `--` makes the following token the filename
(NoArgs when none follows), any other token is itself the filename, and a
missing token gives NoArgs; the NoArgs usage message contains `<FILE>`. -/
theorem fromArgs_classification :
    ∀ (d : Description) (bin tok f : List Char) (rest : List (List Char)),
      fromArgs [] d = Except.error (NoInput.noArgs d) ∧
      fromArgs [bin] d = Except.error (NoInput.noArgs { d with binName := bin }) ∧
      fromArgs (bin :: "--help".toList :: rest) d =
        Except.error (NoInput.help { d with binName := bin }) ∧
      fromArgs (bin :: "-h".toList :: rest) d =
        Except.error (NoInput.help { d with binName := bin }) ∧
      fromArgs (bin :: "--version".toList :: rest) d =
        Except.error (NoInput.version { d with binName := bin }) ∧
      fromArgs (bin :: "-V".toList :: rest) d =
        Except.error (NoInput.version { d with binName := bin }) ∧
      fromArgs (bin :: "--stdin".toList :: rest) d = Except.ok Input.stdin ∧
      fromArgs (bin :: "-0".toList :: rest) d = Except.ok Input.stdin ∧
      fromArgs (bin :: "--".toList :: f :: rest) d = Except.ok (Input.file f) ∧
      fromArgs [bin, "--".toList] d =
        Except.error (NoInput.noArgs { d with binName := bin }) ∧
      (tok ∉ ["--help".toList, "-h".toList, "--version".toList, "-V".toList,
          "--stdin".toList, "-0".toList, "--".toList] →
        fromArgs (bin :: tok :: rest) d = Except.ok (Input.file tok)) ∧
      List.IsInfix "<FILE>".toList (noInputMsg (NoInput.noArgs d)) := by
  intro d bin tok f rest
  refine ⟨rfl, rfl, rfl, rfl, rfl, rfl, rfl, rfl, rfl, rfl, fun h => ?_, ?_⟩
  · simp [not_or] at h
    obtain ⟨h1, h2, h3, h4, h5, h6, h7⟩ := h
    simp [fromArgs, fileIs, h1, h2, h3, h4, h5, h6, h7]
  · refine ⟨"The following required argument was not provided: ".toList,
      "\n\nUsage: ".toList ++
        (d.binName ++
          (" [OPTIONS] [FILE]\n\nFor more information try ".toList ++
            ([quoteChar] ++ "--help".toList ++ [quoteChar]))), ?_⟩
    show ("The following required argument was not provided: ".toList ++
        "<FILE>".toList) ++ ("\n\nUsage: ".toList ++ _) = _
    rw [← List.append_assoc]
    exact congrArg (· ++ _) (by decide)

/-- C8 witness: the theorem applied at a concrete description and at the
concrete non-flag token `"input.txt"`. -/
theorem fromArgs_classification_witness :
    fromArgs ["calorie-counting".toList, "input.txt".toList]
        { name := "calorie-counting".toList, binName := "cc".toList,
          description := "d".toList, version := (0, 1, 0) } =
      Except.ok (Input.file "input.txt".toList) :=
  let d : Description :=
    { name := "calorie-counting".toList, binName := "cc".toList,
      description := "d".toList, version := (0, 1, 0) }
  (fromArgs_classification d "calorie-counting".toList "input.txt".toList
    [] []).2.2.2.2.2.2.2.2.2.2.1 (by decide)

/-- C2 counterexample: `u64` sums wrap. Three groups, each one ration of
2 ^ 63 calories, are parseable input with group sums
[2 ^ 63, 2 ^ 63, 2 ^ 63]; the sum of the 3 largest is 3 * 2 ^ 63, which
exceeds the `u64` maximum, and `max_calorie_sum(3)` returns the wrapped
value 2 ^ 63 — not the exact sum of the K largest elements the claim
states. -/
theorem maxCalorieSum_wraps_on_overflow :
    maxCalorieSum { elves := [{ rations := [{ calories := 2 ^ 63 }] },
                              { rations := [{ calories := 2 ^ 63 }] },
                              { rations := [{ calories := 2 ^ 63 }] }] } 3 = 2 ^ 63 ∧
    ((List.insertionSort (· ≥ ·)
        (List.map elfSum [{ rations := [{ calories := 2 ^ 63 }] },
                          { rations := [{ calories := 2 ^ 63 }] },
                          { rations := [{ calories := 2 ^ 63 }] }])).take 3).sum =
      3 * 2 ^ 63 ∧
    (2 ^ 63 : Nat) ≠ 3 * 2 ^ 63 := by decide

/-- C2 amended: the top-K accumulator returns the sum of the K largest
group sums reduced mod 2 ^ 64 (a wrapping `u64` sum); in particular it
returns exactly the sum of the K largest group sums whenever that sum
fits in a `u64`, and when K is at least the number of groups every group
contributes, giving the total of all group sums mod 2 ^ 64. -/
theorem maxCalorieSum_sum_of_topK (e : Elves) (k : Nat) (hk : 1 ≤ k) :
    maxCalorieSum e k =
      ((List.insertionSort (· ≥ ·) (e.elves.map elfSum)).take k).sum % u64Limit ∧
    (((List.insertionSort (· ≥ ·) (e.elves.map elfSum)).take k).sum < u64Limit →
      maxCalorieSum e k =
        ((List.insertionSort (· ≥ ·) (e.elves.map elfSum)).take k).sum) ∧
    ((e.elves.map elfSum).length ≤ k →
      maxCalorieSum e k = (e.elves.map elfSum).sum % u64Limit) := by
  have hmain : maxCalorieSum e k =
      ((List.insertionSort (· ≥ ·) (e.elves.map elfSum)).take k).sum % u64Limit := by
    rw [show maxCalorieSum e k =
        ((e.elves.map elfSum).foldl (topStep k) []).sum % u64Limit from rfl,
      (foldl_topStep_perm k (e.elves.map elfSum)).sum_eq]
  refine ⟨hmain, fun hlt => ?_, fun hlen => ?_⟩
  · rw [hmain, Nat.mod_eq_of_lt hlt]
  · rw [hmain, List.take_of_length_le
      (by rw [(List.perm_insertionSort (· ≥ ·) (e.elves.map elfSum)).length_eq]
          exact hlen),
      (List.perm_insertionSort (· ≥ ·) (e.elves.map elfSum)).sum_eq]

/-- C2 witness: the amended theorem applied to the spec example with group
sums `[1000, 2000, 3000, 4000]` (no overflow): `K = 3` gives `9000` (the
three largest), and `K = 5` exceeds the group count, giving the total
`10000`. -/
theorem maxCalorieSum_sum_of_topK_witness :
    maxCalorieSum ⟨[⟨[⟨1000⟩]⟩, ⟨[⟨2000⟩]⟩, ⟨[⟨3000⟩]⟩, ⟨[⟨4000⟩]⟩]⟩ 3 = 9000 ∧
    maxCalorieSum ⟨[⟨[⟨1000⟩]⟩, ⟨[⟨2000⟩]⟩, ⟨[⟨3000⟩]⟩, ⟨[⟨4000⟩]⟩]⟩ 5 = 10000 :=
  ⟨((maxCalorieSum_sum_of_topK ⟨[⟨[⟨1000⟩]⟩, ⟨[⟨2000⟩]⟩, ⟨[⟨3000⟩]⟩, ⟨[⟨4000⟩]⟩]⟩
        3 (by decide)).2.1 (by decide)).trans (by decide),
    ((maxCalorieSum_sum_of_topK ⟨[⟨[⟨1000⟩]⟩, ⟨[⟨2000⟩]⟩, ⟨[⟨3000⟩]⟩, ⟨[⟨4000⟩]⟩]⟩
        5 (by decide)).2.1 (by decide)).trans (by decide)⟩

end Aoc
